import Mathlib

/-!
Verification development for the INIS multi-column PDF-to-text exporter
(`script/inis-pdf-to-text.py`).  The script's functions are shallowly
embedded here: Python `str` values are modelled as `List Char` (named
`Chars`), Python `float` values as `ℚ` (exact arithmetic), fallible code
as `Except`/`Option`, and the external PDF engine (pdfplumber) as an
abstract page structure supplying glyphs per bounding box.
-/

/-- Model of a Python `str`: a list of Unicode code points. -/
abbrev Chars := List Char

/-- A column box `(x0, x1)` as produced by `parse_cols_spec`/`equal_columns`. -/
abbrev Box := ℚ × ℚ

/-- Python `str.split(sep)` for a one-character separator: split at every
occurrence, keeping empty parts. -/
def splitOnChar (s : Chars) (sep : Char) : List Chars :=
  match s with
  | [] => [[]]
  | c :: rest =>
    if c = sep then [] :: splitOnChar rest sep
    else
      match splitOnChar rest sep with
      | [] => [[c]]
      | p :: ps => (c :: p) :: ps

/-- Python `str.lstrip()`: drop leading whitespace. -/
def lstripPy (s : Chars) : Chars := s.dropWhile Char.isWhitespace

/-- Python `str.rstrip()`: drop trailing whitespace. -/
def rstripPy (s : Chars) : Chars := (s.reverse.dropWhile Char.isWhitespace).reverse

/-- Python `str.strip()`: drop whitespace on both ends. -/
def stripPy (s : Chars) : Chars := rstripPy (lstripPy s)

/-- `l ≠ []` and every element is a decimal digit. -/
def allDigits (l : Chars) : Bool := !l.isEmpty && l.all Char.isDigit

/-- Numeric value of a list of decimal digits (most significant first). -/
def digitsToNat (l : Chars) : ℕ := l.foldl (fun a c => 10 * a + (c.toNat - 48)) 0

/-- Parse the unsigned mantissa of a decimal literal: `"12"`, `"12.5"`,
`"12."`, `".5"`. -/
def parseMantissa (l : Chars) : Option ℚ :=
  let ip := l.takeWhile (· ≠ '.')
  let rest := l.dropWhile (· ≠ '.')
  match rest with
  | [] => if allDigits ip then some (digitsToNat ip) else none
  | _ :: fp =>
    if ip.all Char.isDigit && fp.all Char.isDigit && (!ip.isEmpty || !fp.isEmpty) then
      some ((digitsToNat ip : ℚ) + (digitsToNat fp : ℚ) / (10 : ℚ) ^ fp.length)
    else none

/-- Parse the (signed) exponent part of a decimal literal. -/
def parseExpPart (l : Chars) : Option ℤ :=
  match l with
  | '+' :: d => if allDigits d then some ((digitsToNat d : ℤ)) else none
  | '-' :: d => if allDigits d then some (-(digitsToNat d : ℤ)) else none
  | d => if allDigits d then some ((digitsToNat d : ℤ)) else none

/-- Model of Python's built-in `float(str)` on plain decimal literals
(optional sign, digits with optional decimal point, optional exponent);
other inputs — in particular strings containing a `':'` — raise
`ValueError`, modelled as `none`.  (`inf`/`nan` spellings and digit
underscores are not used by column specs and are not modelled.) -/
def pyfloat (s : Chars) : Option ℚ :=
  let t := stripPy s
  let su : ℚ × Chars :=
    match t with
    | '+' :: r => (1, r)
    | '-' :: r => (-1, r)
    | r => (1, r)
  let m := su.2.takeWhile (fun c => c ≠ 'e' && c ≠ 'E')
  let erest := su.2.dropWhile (fun c => c ≠ 'e' && c ≠ 'E')
  match erest with
  | [] => (parseMantissa m).map (su.1 * ·)
  | _ :: ex =>
    match parseMantissa m, parseExpPart ex with
    | some mv, some e => some (su.1 * mv * (10 : ℚ) ^ e)
    | _, _ => none

/-- Errors raised by the geometry spec parser.  The source raises
`ValueError` with distinct messages; each message shape gets its own
constructor (`floatParse` is the `ValueError` escaping from `float()`). -/
inductive SpecErr where
  | formatErr (token : Chars)
  | invalidBox (token : Chars) (x0 x1 : ℚ)
  | floatParse (arg : Chars)
  | overlapErr (prev next : Box)
deriving DecidableEq

/-- `_parse_coord`: strip the token; a trailing `%` means a percentage of
`width`, otherwise a literal coordinate. -/
def parse_coord (token : Chars) (width : ℚ) : Except SpecErr ℚ :=
  let t := stripPy token
  if t.getLast? = some '%' then
    match pyfloat t.dropLast with
    | some v => .ok (v / 100 * width)
    | none => .error (.floatParse t.dropLast)
  else
    match pyfloat t with
    | some v => .ok v
    | none => .error (.floatParse t)

/-- One iteration of the `parse_cols_spec` loop: validate the separator,
parse both coordinates, reject inverted boxes. -/
def parseToken (p : Chars) (width : ℚ) : Except SpecErr Box :=
  if ':' ∈ p then
    let a := p.takeWhile (· ≠ ':')
    let b := (p.dropWhile (· ≠ ':')).tail
    match parse_coord a width with
    | .error e => .error e
    | .ok x0 =>
      match parse_coord b width with
      | .error e => .error e
      | .ok x1 =>
        if x1 ≤ x0 then .error (.invalidBox p x0 x1) else .ok (x0, x1)
  else .error (.formatErr p)

/-- The token loop of `parse_cols_spec`, accumulating boxes in order. -/
def parseBoxesLoop (width : ℚ) : List Chars → Except SpecErr (List Box)
  | [] => .ok []
  | p :: rest =>
    match parseToken p width with
    | .error e => .error e
    | .ok b =>
      match parseBoxesLoop width rest with
      | .error e => .error e
      | .ok bs => .ok (b :: bs)

/-- Stable insertion by first component (extensionally Python's stable
`sorted(boxes, key=lambda t: t[0])`). -/
def insertByFst (b : Box) : List Box → List Box
  | [] => [b]
  | c :: t => if b.1 ≤ c.1 then b :: c :: t else c :: insertByFst b t

/-- Stable sort by first component. -/
def sortByFst : List Box → List Box
  | [] => []
  | b :: t => insertByFst b (sortByFst t)

/-- The overlap scan of `parse_cols_spec`: walk adjacent pairs of the
sorted list and report the first pair whose next `x0` is below the
previous `x1`. -/
def checkOverlap : Box → List Box → Option (Box × Box)
  | _, [] => none
  | prev, b :: rest => if b.1 < prev.2 then some (prev, b) else checkOverlap b rest

/-- The comma-separated parts of a spec, with whitespace-only parts
dropped (`[p for p in spec.split(",") if p.strip()]`). -/
def partsOf (spec : Chars) : List Chars :=
  (splitOnChar spec ',').filter (fun p => stripPy p ≠ [])

/-- `parse_cols_spec`: convert `"x0:x1,x2:x3,..."` into a list of boxes,
validating separators, coordinates, inversion and overlaps. -/
def parse_cols_spec (spec : Chars) (width : ℚ) : Except SpecErr (List Box) :=
  if spec = [] then .ok []
  else
    match parseBoxesLoop width (partsOf spec) with
    | .error e => .error e
    | .ok boxes =>
      let bs := sortByFst boxes
      match bs with
      | [] => .ok []
      | h :: t =>
        match checkOverlap h t with
        | some pq => .error (.overlapErr pq.1 pq.2)
        | none => .ok bs

/-- `equal_columns`: `n` equal-width columns over `[0, width]`. -/
def equal_columns (width : ℚ) (n : ℕ) : List Box :=
  (List.range n).map (fun (i : ℕ) => ((i : ℚ) * (width / n), ((i : ℚ) + 1) * (width / n)))

/-- `true` exactly on a `FormatError` outcome (`missing ':'` message). -/
def isFormatErr : Except SpecErr (List Box) → Bool
  | .error (.formatErr _) => true
  | _ => false

/-- `true` exactly on a successful parse. -/
def exceptOk {ε α : Type} : Except ε α → Bool
  | .ok _ => true
  | .error _ => false

deriving instance DecidableEq for Except

/-- A positioned glyph as consumed from the external PDF engine: the
source reads `ch.get("text", "")`, `ch.get("x0", None)`, `ch.get("x1",
None)`, `ch.get("top", 0.0)` and `ch.get("fontname", "")`, so text,
top and fontname carry their defaults while the coordinates stay
optional. -/
structure Glyph where
  text : Chars
  x0 : Option ℚ
  x1 : Option ℚ
  top : ℚ
  fontname : Chars

/-- `_BOLD_TOKENS`: the fixed weight-keyword list. -/
def BOLD_TOKENS : List Chars :=
  [ "bold".toList, "bd".toList, "black".toList, "heavy".toList,
    "semibold".toList, "demi".toList, "mediumbold".toList ]

/-- `needle` occurs at the start of `hay`. -/
def startsWith : Chars → Chars → Bool
  | [], _ => true
  | _ :: _, [] => false
  | a :: as, b :: bs => a = b && startsWith as bs

/-- Python's `tok in fn` substring test. -/
def containsTok (needle : Chars) : Chars → Bool
  | [] => needle.isEmpty
  | c :: rest => startsWith needle (c :: rest) || containsTok needle rest

/-- `_looks_bold`: the font name, lowercased, contains one of the weight
keywords (empty font names are never bold). -/
def looks_bold (fontname : Chars) : Bool :=
  if fontname = [] then false
  else BOLD_TOKENS.any (fun tok => containsTok tok (fontname.map Char.toLower))

/-- One output token of the line reconstructor: an opening or closing
bold marker, an inferred space, or a glyph's text. -/
inductive Item where
  | openB
  | closeB
  | space
  | txt (s : Chars)
deriving DecidableEq

/-- Render one output token to characters. -/
def renderItem : Item → Chars
  | .openB => "<bold>".toList
  | .closeB => "</bold>".toList
  | .space => [' ']
  | .txt s => s

/-- The glyph width `w = max(0.0, x1 - x0)` when both coordinates are
present, else unknown. -/
def widthOf (g : Glyph) : Option ℚ :=
  match g.x0, g.x1 with
  | some a, some b => some (max 0 (b - a))
  | _, _ => none

/-- `avg_char_w`: the previous glyph's width if known and positive, else
the fixed fallback `3.0`. -/
def refWidth : Option ℚ → ℚ
  | some w => if 0 < w then w else 3
  | none => 3

/-- The space decision of the reconstructor: a single space when both
the previous right edge and the current left edge are known and the gap
strictly exceeds `gr * avg_char_w`. -/
def spaceItemsOf (gr : ℚ) (px x0 pw : Option ℚ) : List Item :=
  match px, x0 with
  | some a, some b => if b - a > gr * refWidth pw then [.space] else []
  | _, _ => []

/-- The bold-transition emission: opening marker on entering a bold run,
closing marker on leaving it. -/
def boldItemsOf (isBold inb : Bool) : List Item :=
  if isBold && !inb then [.openB]
  else if !isBold && inb then [.closeB]
  else []

/-- The glyph loop of `_reconstruct_line_with_bold`, carrying the bold
flag and the previous output-producing glyph's right edge and width;
emits the closing marker when the line ends inside a bold run. -/
def reconLoop (gr : ℚ) : List Glyph → Bool → Option ℚ → Option ℚ → List Item
  | [], inb, _, _ => if inb then [.closeB] else []
  | ch :: rest, inb, prev_x1, prev_w =>
    if ch.text = [] then reconLoop gr rest inb prev_x1 prev_w
    else
      let isBold := looks_bold ch.fontname
      spaceItemsOf gr prev_x1 ch.x0 prev_w ++ boldItemsOf isBold inb ++
        [.txt ch.text] ++ reconLoop gr rest isBold ch.x1 (widthOf ch)

/-- The reconstructor's output tokens for one line (initial state: not
bold, no previous glyph). -/
def reconItems (line : List Glyph) (gr : ℚ) : List Item :=
  reconLoop gr line false none none

/-- `_reconstruct_line_with_bold`: the concatenation of the rendered
output tokens. -/
def reconstruct_line_with_bold (line : List Glyph) (gr : ℚ) : Chars :=
  ((reconItems line gr).map renderItem).join

/-- `true` on the two bold markers. -/
def isMarker : Item → Bool
  | .openB => true
  | .closeB => true
  | _ => false

/-- `k` balanced open/close marker pairs in strict alternation. -/
def pairsL : ℕ → List Item
  | 0 => []
  | k + 1 => .openB :: .closeB :: pairsL k

/-- Number of inferred spaces among output tokens. -/
def countSpaces (l : List Item) : ℕ := l.countP (fun i => decide (i = Item.space))

/-- Concrete previous glyph for the C4 witness. -/
def glyphA : Glyph := ⟨"a".toList, some 0, some 2, 0, []⟩

/-- Concrete current glyph for the C4 witness. -/
def glyphB : Glyph := ⟨"b".toList, some 4, some 5, 0, []⟩

/-- An empty-text glyph used by the C8 witness. -/
def glyphEmpty : Glyph := ⟨[], some 10, some 11, 0, "Arial-Bold".toList⟩

/-- Python `str.splitlines()` restricted to `'\n'`-separated text: split
at every newline; a trailing newline does not produce a final empty
line. -/
def splitlinesPy : Chars → List Chars
  | [] => []
  | c :: rest =>
    if c = '\n' then [] :: splitlinesPy rest
    else
      match splitlinesPy rest with
      | [] => [[c]]
      | l :: ls => (c :: l) :: ls

/-- `"\n".join(...)`. -/
def joinNl : List Chars → Chars
  | [] => []
  | [l] => l
  | l :: ls => l ++ '\n' :: joinNl ls

/-- `ln.strip() == ""`: the line is blank (all whitespace). -/
def blankB (l : Chars) : Bool := l.all Char.isWhitespace

/-- The collapsing loop of `clean_lines`: drop a blank line immediately
following another blank line; keep everything else. -/
def cleanCore : List Chars → Bool → List Chars
  | [], _ => []
  | ln :: rest, lastBlank =>
    if blankB ln && lastBlank then cleanCore rest lastBlank
    else ln :: cleanCore rest (blankB ln)

/-- `clean_lines`: split into lines, right-strip each, collapse blank
runs, rejoin, and strip the result. -/
def clean_lines (text : Chars) : Chars :=
  if text = [] then []
  else stripPy (joinNl (cleanCore ((splitlinesPy text).map rstripPy) false))

/-- Round-half-to-even on ℚ (Python's `round` tie-breaking). -/
def roundHalfEven (q : ℚ) : ℤ :=
  if q - ⌊q⌋ < 1 / 2 then ⌊q⌋
  else if q - ⌊q⌋ > 1 / 2 then ⌊q⌋ + 1
  else if ⌊q⌋ % 2 = 0 then ⌊q⌋ else ⌊q⌋ + 1

/-- `round(·, 3)`: round to three decimal places. -/
def round3 (q : ℚ) : ℚ := (roundHalfEven (q * 1000) : ℚ) / 1000

/-- Ordered insertion for a boolean `le`; with a total-preorder `le`
this is extensionally Python's stable `sorted`. -/
def insertBy {α : Type} (le : α → α → Bool) (a : α) : List α → List α
  | [] => [a]
  | b :: t => if le a b then a :: b :: t else b :: insertBy le a t

/-- Stable insertion sort for a boolean `le`. -/
def sortBy {α : Type} (le : α → α → Bool) : List α → List α
  | [] => []
  | a :: t => insertBy le a (sortBy le t)

/-- The glyph sort key of `_group_chars_into_lines`:
`(round(top, 3), x0)` lexicographically. -/
def glyphKeyLe (a b : Glyph) : Bool :=
  decide (round3 a.top < round3 b.top) ||
    (decide (round3 a.top = round3 b.top) && decide (a.x0.getD 0 ≤ b.x0.getD 0))

/-- Sort a finished line by horizontal position. -/
def sortByX0 (line : List Glyph) : List Glyph :=
  sortBy (fun a b => decide (a.x0.getD 0 ≤ b.x0.getD 0)) line

/-- The grouping loop: start a new line whenever the vertical distance
from the line's anchor exceeds the tolerance; each finished line is
re-sorted by `x0`. -/
def groupGo (tol : ℚ) : List Glyph → List Glyph → ℚ → List (List Glyph)
  | [], cur, _ => [sortByX0 cur]
  | ch :: rest, cur, ctop =>
    if |ch.top - ctop| > tol then sortByX0 cur :: groupGo tol rest [ch] ch.top
    else groupGo tol rest (cur ++ [ch]) ctop

/-- `_group_chars_into_lines`: sort by `(round(top,3), x0)` and group by
vertical tolerance. -/
def group_chars_into_lines (chars : List Glyph) (line_tol : ℚ) : List (List Glyph) :=
  match sortBy glyphKeyLe chars with
  | [] => []
  | c :: rest => groupGo line_tol rest [c] c.top

/-- The external page (pdfplumber collaborator): dimensions plus a
glyph query for a crop box `(x0, top, x1, bottom)`.  Cropping itself is
out of scope (§6 of the spec), so it stays an abstract function. -/
structure Page where
  width : ℚ
  height : ℚ
  charsIn : ℚ × ℚ × ℚ × ℚ → List Glyph

/-- `extract_text_with_bold`: group the cropped glyphs into lines,
reconstruct each line (gap-ratio `0.5`), join with newlines, clean. -/
def extract_text_with_bold (page : Page) (bbox : ℚ × ℚ × ℚ × ℚ)
    (line_tol : ℚ) : Chars :=
  let chars := page.charsIn bbox
  let lines := group_chars_into_lines chars line_tol
  clean_lines (joinNl (lines.map (fun lc => reconstruct_line_with_bold lc (1 / 2))))

/-- `"\n\n".join(...)`. -/
def joinSep2 : List Chars → Chars
  | [] => []
  | [l] => l
  | l :: ls => l ++ '\n' :: '\n' :: joinSep2 ls

/-- `extract_page_columns`: crop header/footer (fall back to the full
height when inverted), clamp each column box to the page width, skip
empty boxes, extract per column with line tolerance `max(1.0,
y_tolerance)`, and join the non-empty column texts with a blank line.
The `xt` parameter is the horizontal tolerance, kept for interface
parity and unused. -/
def extract_page_columns (page : Page) (col_boxes : List Box)
    (hr fr xt yt : ℚ) : Chars :=
  let W := page.width
  let H := page.height
  let y0 := H * hr
  let y1 := H * (1 - fr)
  let yy : ℚ × ℚ := if y1 ≤ y0 then (0, H) else (y0, y1)
  let col_texts := col_boxes.filterMap (fun b =>
    let xx0 := max 0 (min W b.1)
    let xx1 := max 0 (min W b.2)
    if xx1 ≤ xx0 then none
    else
      let t := extract_text_with_bold page (xx0, yy.1, xx1, yy.2) (max 1 yt)
      if t ≠ [] then some (clean_lines t) else none)
  joinSep2 (col_texts.filter (fun t => t ≠ []))

/-- Run-level errors of the document assembler: an out-of-range page
access (`IndexError`) or a column-spec `ValueError`. -/
inductive RunErr where
  | indexErr
  | specErr (e : SpecErr)
deriving DecidableEq

/-- Python `range(a, b)` over integers. -/
def pyRange (a b : ℤ) : List ℤ :=
  (List.range (b - a).toNat).map (fun (k : ℕ) => a + (k : ℤ))

/-- Box-set selection for one page: odd-page spec for odd pages, even-page
spec for even pages (empty/absent specs are falsy), else equal columns. -/
def chooseBoxes (page : Page) (pnum : ℤ) (dflt : ℕ)
    (oddSpec evenSpec : Chars) : Except RunErr (List Box) :=
  if pnum % 2 = 1 ∧ oddSpec ≠ [] then
    match parse_cols_spec oddSpec page.width with
    | .error e => .error (.specErr e)
    | .ok bs => .ok bs
  else if pnum % 2 = 0 ∧ evenSpec ≠ [] then
    match parse_cols_spec evenSpec page.width with
    | .error e => .error (.specErr e)
    | .ok bs => .ok bs
  else .ok (equal_columns page.width dflt)

/-- The page loop of `pdf_to_txt_parity_boxes`: fetch each 0-based page
index (an out-of-range access is an `IndexError`), pick its box set,
extract, and keep non-empty page texts. -/
def pagesLoop (pages : List Page) (dflt : ℕ) (hr fr xt yt : ℚ)
    (oddSpec evenSpec : Chars) : List ℤ → Except RunErr (List Chars)
  | [] => .ok []
  | idx :: rest =>
    match pages.get? idx.toNat with
    | none => .error .indexErr
    | some page =>
      match chooseBoxes page (idx + 1) dflt oddSpec evenSpec with
      | .error e => .error e
      | .ok col_boxes =>
        let pt := extract_page_columns page col_boxes hr fr xt yt
        match pagesLoop pages dflt hr fr xt yt oddSpec evenSpec rest with
        | .error e => .error e
        | .ok acc => .ok (if pt ≠ [] then pt :: acc else acc)

/-- `pdf_to_txt_parity_boxes` (file I/O aside): clamp the 1-based page
range (`sp = max(1, start)`, `ep = max(sp, min(end, total))`), process
pages `sp..ep`, and join the non-empty page texts with a blank line. -/
def pdf_to_txt_parity_boxes (pages : List Page) (start_page : ℤ)
    (end_page : Option ℤ) (default_cols : ℕ) (hr fr xt yt : ℚ)
    (oddSpec evenSpec : Chars) : Except RunErr Chars :=
  let total : ℤ := pages.length
  let sp := max 1 start_page
  let ep := max sp (min (end_page.getD total) total)
  match pagesLoop pages default_cols hr fr xt yt oddSpec evenSpec
      (pyRange (sp - 1) ep) with
  | .error e => .error e
  | .ok texts => .ok (joinSep2 texts)

/-- A concrete page for witnesses: 100×100, no glyphs anywhere. -/
def page0 : Page := ⟨100, 100, fun _ => []⟩

/-- Drop trailing empty lines. -/
def dropTrailingEmp (l : List Chars) : List Chars :=
  (l.reverse.dropWhile (fun x => x.isEmpty)).reverse

/-- Drop leading and trailing empty lines. -/
def trimEmp (l : List Chars) : List Chars :=
  dropTrailingEmp (l.dropWhile (fun x => x.isEmpty))

/-- Left-strip the first line only. -/
def lstripFirst : List Chars → List Chars
  | [] => []
  | l :: ls => lstripPy l :: ls

/-- No two adjacent lines are both blank. -/
def NoConsecBlank (l : List Chars) : Prop :=
  List.Chain' (fun a b => ¬(blankB a = true ∧ blankB b = true)) l

/-- Number of non-blank lines. -/
def countNonBlank (l : List Chars) : ℕ := l.countP (fun s => !(blankB s))

/-- Inserting into a list sorted by `x0` keeps it sorted by `x0`. -/
lemma chain'_insertByFst (b : Box) (l : List Box)
    (h : List.Chain' (fun a c : Box => a.1 ≤ c.1) l) :
    List.Chain' (fun a c : Box => a.1 ≤ c.1) (insertByFst b l) := by
  induction l with
  | nil => simp [insertByFst]
  | cons c t ih =>
    rw [insertByFst]
    by_cases hbc : b.1 ≤ c.1
    · rw [if_pos hbc]
      exact List.chain'_cons.mpr ⟨hbc, h⟩
    · rw [if_neg hbc, List.chain'_cons']
      refine ⟨?_, ih (List.Chain'.tail h)⟩
      intro y hy
      cases t with
      | nil =>
        simp [insertByFst] at hy
        subst hy
        exact le_of_not_le hbc
      | cons d t' =>
        rw [insertByFst] at hy
        by_cases hbd : b.1 ≤ d.1
        · rw [if_pos hbd] at hy
          simp at hy
          subst hy
          exact le_of_not_le hbc
        · rw [if_neg hbd] at hy
          simp at hy
          subst hy
          exact (List.chain'_cons.mp h).1

/-- `sortByFst` sorts by `x0`. -/
lemma sortByFst_sorted (l : List Box) :
    List.Chain' (fun a c : Box => a.1 ≤ c.1) (sortByFst l) := by
  induction l with
  | nil => simp [sortByFst]
  | cons b t ih => exact chain'_insertByFst b _ ih

/-- If the overlap scan reports nothing, adjacent boxes do not overlap. -/
lemma checkOverlap_none (h : Box) (t : List Box) (hn : checkOverlap h t = none) :
    List.Chain' (fun a b : Box => a.2 ≤ b.1) (h :: t) := by
  induction t generalizing h with
  | nil => simp
  | cons b t' ih =>
    rw [checkOverlap] at hn
    by_cases hlt : b.1 < h.2
    · simp [hlt] at hn
    · rw [if_neg hlt] at hn
      exact List.chain'_cons.mpr ⟨le_of_not_lt hlt, ih b hn⟩

/-- If some adjacent pair overlaps, the overlap scan reports an adjacent
overlapping pair. -/
lemma checkOverlap_finds (h : Box) (t : List Box)
    (hv : ∃ pr ∈ (h :: t).zip t, pr.2.1 < pr.1.2) :
    ∃ p q, checkOverlap h t = some (p, q) ∧ (p, q) ∈ (h :: t).zip t ∧ q.1 < p.2 := by
  induction t generalizing h with
  | nil => simp at hv
  | cons b t' ih =>
    by_cases hlt : b.1 < h.2
    · exact ⟨h, b, by simp [checkOverlap, hlt], by simp, hlt⟩
    · obtain ⟨pr, hmem, hpr⟩ := hv
      rw [List.zip_cons_cons] at hmem
      rcases List.mem_cons.mp hmem with heq | hmem'
      · subst heq; exact absurd hpr hlt
      · obtain ⟨p, q, hsome, hmem'', hlt'⟩ := ih b ⟨pr, hmem', hpr⟩
        exact ⟨p, q, by rw [checkOverlap, if_neg hlt]; exact hsome,
          by rw [List.zip_cons_cons]; exact List.mem_cons_of_mem _ hmem'', hlt'⟩

/-- C1: for every spec string and positive reference width for which
`parse_cols_spec` succeeds, the returned boxes are sorted by `x0` and
pairwise non-overlapping (each next `x0` is at least the previous `x1`);
and whenever the token-parsing phase succeeds but the sorted boxes contain
an adjacent pair with the next `x0` strictly below the previous `x1`,
`parse_cols_spec` fails with an `OverlapError` identifying an adjacent
overlapping pair of the sorted list. -/
theorem parse_cols_spec_sorted_nonoverlap (spec : Chars) (w : ℚ) (hw : 0 < w) :
    (∀ bs, parse_cols_spec spec w = .ok bs →
      List.Chain' (fun a b : Box => a.1 ≤ b.1) bs ∧
      List.Chain' (fun a b : Box => a.2 ≤ b.1) bs) ∧
    (∀ bs, parseBoxesLoop w (partsOf spec) = .ok bs →
      (∃ pr ∈ (sortByFst bs).zip (sortByFst bs).tail, pr.2.1 < pr.1.2) →
      ∃ p q, parse_cols_spec spec w = .error (.overlapErr p q) ∧
        (p, q) ∈ (sortByFst bs).zip (sortByFst bs).tail ∧ q.1 < p.2) := by
  constructor
  · intro bs hok
    by_cases hspec : spec = []
    · rw [parse_cols_spec, if_pos hspec] at hok
      obtain rfl : ([] : List Box) = bs := by injection hok
      simp
    · cases hloop : parseBoxesLoop w (partsOf spec) with
      | error e => simp [parse_cols_spec, if_neg hspec, hloop] at hok
      | ok boxes =>
        cases hsort : sortByFst boxes with
        | nil =>
          simp [parse_cols_spec, if_neg hspec, hloop, hsort] at hok
          subst hok
          simp
        | cons hd tl =>
          cases hco : checkOverlap hd tl with
          | some pq => simp [parse_cols_spec, if_neg hspec, hloop, hsort, hco] at hok
          | none =>
            simp [parse_cols_spec, if_neg hspec, hloop, hsort, hco] at hok
            subst hok
            constructor
            · rw [← hsort]
              exact sortByFst_sorted boxes
            · exact checkOverlap_none hd tl hco
  · intro bs hloop hviol
    by_cases hspec : spec = []
    · subst hspec
      rw [show partsOf ([] : Chars) = [] from by decide] at hloop
      obtain rfl : ([] : List Box) = bs := by injection hloop
      simp [sortByFst] at hviol
    · cases hsort : sortByFst bs with
      | nil =>
        rw [hsort] at hviol
        simp at hviol
      | cons hd tl =>
        rw [hsort] at hviol
        simp only [List.tail_cons] at hviol
        obtain ⟨p, q, hsome, hmem, hlt⟩ := checkOverlap_finds hd tl hviol
        refine ⟨p, q, ?_, by simpa using hmem, hlt⟩
        simp [parse_cols_spec, if_neg hspec, hloop, hsort, hsome]

/-- C1 witness: instantiate at the spec `"0:1,2:3"` with width `4`. -/
theorem parse_cols_spec_sorted_nonoverlap_witness :
    (0 : ℚ) < 4 ∧
    ((∀ bs, parse_cols_spec ("0:1,2:3".toList) 4 = .ok bs →
      List.Chain' (fun a b : Box => a.1 ≤ b.1) bs ∧
      List.Chain' (fun a b : Box => a.2 ≤ b.1) bs) ∧
    (∀ bs, parseBoxesLoop 4 (partsOf ("0:1,2:3".toList)) = .ok bs →
      (∃ pr ∈ (sortByFst bs).zip (sortByFst bs).tail, pr.2.1 < pr.1.2) →
      ∃ p q, parse_cols_spec ("0:1,2:3".toList) 4 = .error (.overlapErr p q) ∧
        (p, q) ∈ (sortByFst bs).zip (sortByFst bs).tail ∧ q.1 < p.2)) :=
  ⟨by norm_num, parse_cols_spec_sorted_nonoverlap ("0:1,2:3".toList) 4 (by norm_num)⟩

/-- `_parse_coord` never raises the missing-separator `ValueError`. -/
lemma parse_coord_ne_formatErr (tok : Chars) (w : ℚ) (t : Chars) :
    parse_coord tok w ≠ .error (.formatErr t) := by
  rw [parse_coord]
  by_cases hp : (stripPy tok).getLast? = some '%'
  · rw [if_pos hp]
    cases pyfloat (stripPy tok).dropLast <;> simp
  · rw [if_neg hp]
    cases pyfloat (stripPy tok) <;> simp

/-- A token is rejected with the missing-separator `ValueError` exactly
when it contains no colon. -/
lemma parseToken_formatErr_iff (p : Chars) (w : ℚ) (t : Chars) :
    parseToken p w = .error (.formatErr t) ↔ t = p ∧ ':' ∉ p := by
  by_cases hc : ':' ∈ p
  · cases ha : parse_coord (p.takeWhile (· ≠ ':')) w with
    | error e =>
      simp only [parseToken, if_pos hc, ha]
      constructor
      · intro he
        have he' : e = SpecErr.formatErr t := by injection he
        exact absurd (he' ▸ ha) (parse_coord_ne_formatErr _ w t)
      · rintro ⟨-, hnc⟩
        exact absurd hc hnc
    | ok x0 =>
      cases hb : parse_coord ((p.dropWhile (· ≠ ':')).tail) w with
      | error e =>
        simp only [parseToken, if_pos hc, ha, hb]
        constructor
        · intro he
          have he' : e = SpecErr.formatErr t := by injection he
          exact absurd (he' ▸ hb) (parse_coord_ne_formatErr _ w t)
        · rintro ⟨-, hnc⟩
          exact absurd hc hnc
      | ok x1 =>
        simp only [parseToken, if_pos hc, ha, hb]
        constructor
        · intro he
          exfalso
          by_cases hle : x1 ≤ x0
          · rw [if_pos hle] at he
            exact absurd he (by simp)
          · rw [if_neg hle] at he
            exact absurd he (by simp)
        · rintro ⟨-, hnc⟩
          exact absurd hc hnc
  · simp [parseToken, if_neg hc, hc, eq_comm]

/-- A successfully parsed token contains a colon. -/
lemma parseToken_ok_colon (p : Chars) (w : ℚ) (b : Box)
    (h : parseToken p w = .ok b) : ':' ∈ p := by
  by_contra hc
  rw [parseToken, if_neg hc] at h
  cases h

/-- The token loop raises the missing-separator `ValueError` for token `t`
exactly when the token list splits as valid tokens, then `t` without a
colon. -/
lemma parseBoxesLoop_formatErr_iff (w : ℚ) (parts : List Chars) (t : Chars) :
    parseBoxesLoop w parts = .error (.formatErr t) ↔
    ∃ pre post, parts = pre ++ t :: post ∧ ':' ∉ t ∧
      ∀ q ∈ pre, exceptOk (parseToken q w) = true := by
  induction parts with
  | nil =>
    simp only [parseBoxesLoop]
    constructor
    · intro h; cases h
    · rintro ⟨pre, post, habs, -, -⟩
      exact absurd habs (by simp)
  | cons p rest ih =>
    cases hpt : parseToken p w with
    | error e =>
      simp only [parseBoxesLoop, hpt]
      constructor
      · intro he
        have he' : e = SpecErr.formatErr t := by injection he
        obtain ⟨rfl, hnc⟩ := (parseToken_formatErr_iff p w t).mp (he' ▸ hpt)
        exact ⟨[], rest, rfl, hnc, by simp⟩
      · rintro ⟨pre, post, hdec, hnc, hpre⟩
        cases pre with
        | nil =>
          simp only [List.nil_append] at hdec
          injection hdec with h1 h2
          rw [← h1] at hnc
          have hft : parseToken p w = .error (.formatErr p) := by
            rw [parseToken, if_neg hnc]
          rw [hpt] at hft
          injection hft with h3
          rw [h3, h1]
        | cons q pre' =>
          injection hdec with h1 h2
          rw [← h1] at hpre
          have hq := hpre p (by simp)
          rw [hpt] at hq
          simp [exceptOk] at hq
    | ok b =>
      cases hrest : parseBoxesLoop w rest with
      | error e =>
        simp only [parseBoxesLoop, hpt, hrest]
        constructor
        · intro he
          have he' : e = SpecErr.formatErr t := by injection he
          obtain ⟨pre, post, hdec, hnc, hpre⟩ := ih.mp (he' ▸ hrest)
          refine ⟨p :: pre, post, by simp [hdec], hnc, ?_⟩
          intro q hq
          rcases List.mem_cons.mp hq with rfl | hq'
          · rw [hpt]; rfl
          · exact hpre q hq'
        · rintro ⟨pre, post, hdec, hnc, hpre⟩
          cases pre with
          | nil =>
            simp only [List.nil_append] at hdec
            injection hdec with h1 h2
            rw [← h1] at hnc
            exact absurd (parseToken_ok_colon p w b hpt) hnc
          | cons q pre' =>
            injection hdec with h1 h2
            have hloop := ih.mpr ⟨pre', post, h2, hnc, fun r hr => hpre r (by simp [hr])⟩
            rw [hrest] at hloop
            injection hloop with h'
            rw [h']
      | ok bs =>
        simp only [parseBoxesLoop, hpt, hrest]
        constructor
        · intro h; cases h
        · rintro ⟨pre, post, hdec, hnc, hpre⟩
          cases pre with
          | nil =>
            simp only [List.nil_append] at hdec
            injection hdec with h1 h2
            rw [← h1] at hnc
            exact absurd (parseToken_ok_colon p w b hpt) hnc
          | cons q pre' =>
            injection hdec with h1 h2
            have hloop := ih.mpr ⟨pre', post, h2, hnc, fun r hr => hpre r (by simp [hr])⟩
            rw [hrest] at hloop
            cases hloop

/-- `parse_cols_spec` raises the missing-separator `ValueError` exactly
when its token loop does. -/
lemma parse_cols_spec_formatErr_iff_loop (spec : Chars) (w : ℚ) (t : Chars) :
    parse_cols_spec spec w = .error (.formatErr t) ↔
    parseBoxesLoop w (partsOf spec) = .error (.formatErr t) := by
  by_cases hspec : spec = []
  · subst hspec
    rw [show partsOf ([] : Chars) = [] from by decide]
    simp [parse_cols_spec, parseBoxesLoop]
  · cases hloop : parseBoxesLoop w (partsOf spec) with
    | error e => simp [parse_cols_spec, if_neg hspec, hloop]
    | ok boxes =>
      cases hsort : sortByFst boxes with
      | nil => simp [parse_cols_spec, if_neg hspec, hloop, hsort]
      | cons hd tl =>
        cases hco : checkOverlap hd tl with
        | some pq => simp [parse_cols_spec, if_neg hspec, hloop, hsort, hco]
        | none => simp [parse_cols_spec, if_neg hspec, hloop, hsort, hco]

/-- C7 (amended): `parse_cols_spec` fails with a `FormatError` naming
token `t` iff, among the comma-separated tokens (whitespace-only parts
dropped), every token before `t` parses to a valid box and `t` contains
no colon at all.  In particular a token with no colon preceded only by
valid tokens is rejected with a `FormatError` naming it; a token with two
or more colons is *not* rejected with a `FormatError` (its coordinate
halves fail numeric parsing instead). -/
theorem parse_cols_spec_formatErr_iff (spec : Chars) (w : ℚ) (t : Chars) :
    parse_cols_spec spec w = .error (.formatErr t) ↔
    ∃ pre post, partsOf spec = pre ++ t :: post ∧ ':' ∉ t ∧
      ∀ q ∈ pre, exceptOk (parseToken q w) = true :=
  (parse_cols_spec_formatErr_iff_loop spec w t).trans
    (parseBoxesLoop_formatErr_iff w (partsOf spec) t)

/-- C7 witness: the colon-free token `"abc"` is rejected with a
`FormatError` naming it. -/
theorem parse_cols_spec_formatErr_iff_witness :
    parse_cols_spec ("abc".toList) 1 = .error (.formatErr ("abc".toList)) :=
  (parse_cols_spec_formatErr_iff ("abc".toList) 1 ("abc".toList)).mpr
    ⟨[], [], by decide, by decide, by simp⟩

/-- C7 counterexample: on the spec `"0:1:2"` the sole token violates the
exactly-one-colon rule (it has two colons), yet parsing does **not** fail
with a `FormatError` — the claimed equivalence is false at this input
(the failure is a numeric `ValueError` on `"1:2"`). -/
theorem parse_cols_spec_formatErr_counterexample :
    ¬ (isFormatErr (parse_cols_spec ("0:1:2".toList) 1) = true ↔
       ∃ p ∈ partsOf ("0:1:2".toList), p.count ':' ≠ 1) := by
  decide

/-- The parser's outcome on a non-empty spec depends only on its filtered
token list. -/
lemma parse_cols_spec_congr_parts (s₁ s₂ : Chars) (w : ℚ)
    (h₁ : s₁ ≠ []) (h₂ : s₂ ≠ []) (hp : partsOf s₁ = partsOf s₂) :
    parse_cols_spec s₁ w = parse_cols_spec s₂ w := by
  rw [parse_cols_spec, parse_cols_spec, if_neg h₁, if_neg h₂, hp]

/-- C10: comma-separated parts consisting only of whitespace are dropped
before validation: a non-empty spec whose parts are all whitespace-only
parses to the empty box list without error, and inserting empty/blank
parts (doubled or trailing commas) does not change the outcome, e.g.
`"0:100,,200:300,"` parses exactly like `"0:100,200:300"`. -/
theorem parse_cols_spec_blank_parts (w : ℚ) :
    (∀ spec : Chars, spec ≠ [] →
      (∀ p ∈ splitOnChar spec ',', stripPy p = []) →
      parse_cols_spec spec w = .ok []) ∧
    parse_cols_spec ("0:100,,200:300,".toList) w =
      parse_cols_spec ("0:100,200:300".toList) w := by
  constructor
  · intro spec hne hall
    have hparts : partsOf spec = [] := by
      rw [partsOf, List.filter_eq_nil]
      intro p hp
      simp [hall p hp]
    rw [parse_cols_spec, if_neg hne, hparts]
    rfl
  · exact parse_cols_spec_congr_parts _ _ w (by decide) (by decide) (by decide)

/-- C10 witness: `" , ,"` is non-empty but all parts are whitespace-only,
so it parses to the empty box list. -/
theorem parse_cols_spec_blank_parts_witness :
    parse_cols_spec (" , ,".toList) 7 = .ok [] :=
  (parse_cols_spec_blank_parts 7).1 (" , ,".toList) (by decide) (by decide)

lemma spaceItemsOf_filter_isMarker (gr : ℚ) (px x0 pw : Option ℚ) :
    (spaceItemsOf gr px x0 pw).filter isMarker = [] := by
  cases px <;> cases x0 <;> simp only [spaceItemsOf] <;> try rfl
  split <;> rfl

lemma countSpaces_append (l₁ l₂ : List Item) :
    countSpaces (l₁ ++ l₂) = countSpaces l₁ + countSpaces l₂ :=
  List.countP_append _ _ _

lemma countSpaces_boldItems (a b : Bool) : countSpaces (boldItemsOf a b) = 0 := by
  cases a <;> cases b <;> rfl

/-- Marker structure of the glyph loop: starting from bold state `inb`,
the emitted markers are a closing marker (iff currently bold) followed by
perfectly alternating open/close pairs. -/
lemma reconLoop_markers (gr : ℚ) (l : List Glyph) :
    ∀ (inb : Bool) (px pw : Option ℚ), ∃ k,
      (reconLoop gr l inb px pw).filter isMarker =
        (if inb then [Item.closeB] else []) ++ pairsL k := by
  induction l with
  | nil =>
    intro inb px pw
    exact ⟨0, by cases inb <;> simp [reconLoop, isMarker, pairsL]⟩
  | cons ch rest ih =>
    intro inb px pw
    by_cases ht : ch.text = []
    · simpa only [reconLoop, if_pos ht] using ih inb px pw
    · obtain ⟨k, hk⟩ := ih (looks_bold ch.fontname) ch.x1 (widthOf ch)
      rw [reconLoop, if_neg ht]
      simp only [List.filter_append, spaceItemsOf_filter_isMarker, List.nil_append]
      cases hib : looks_bold ch.fontname <;> cases inb <;> rw [hib] at hk
      · exact ⟨k, by simp [boldItemsOf, isMarker, hk]⟩
      · exact ⟨k, by simp [boldItemsOf, isMarker, hk]⟩
      · exact ⟨k + 1, by simp [boldItemsOf, isMarker, hk, pairsL]⟩
      · exact ⟨k, by simp [boldItemsOf, isMarker, hk]⟩

/-- C3: for every glyph line and gap-ratio, the reconstructor's bold
markup is balanced: the emitted markers form perfectly alternating
open/close pairs (so every `<bold>` is followed by a matching `</bold>`,
markers never nest, and a line ending inside a bold run still gets its
closing marker). -/
theorem reconstruct_bold_markers_balanced (line : List Glyph) (gr : ℚ) :
    ∃ k, (reconItems line gr).filter isMarker = pairsL k := by
  obtain ⟨k, hk⟩ := reconLoop_markers gr line false none none
  exact ⟨k, by simpa using hk⟩

/-- C4: for a synthetic line of two output-producing glyphs with known
previous right edge `a1` and current left edge `b0`, exactly one space is
emitted iff the gap `b0 - a1` strictly exceeds `gap_ratio` times the
previous glyph's width (falling back to `3.0` when that width is unknown
or non-positive), and no space is emitted otherwise. -/
theorem reconstruct_space_iff (gr : ℚ) (p c : Glyph)
    (hp : p.text ≠ []) (hc : c.text ≠ []) (a1 b0 : ℚ)
    (h1 : p.x1 = some a1) (h0 : c.x0 = some b0) :
    countSpaces (reconItems [p, c] gr) =
      if b0 - a1 > gr * refWidth (widthOf p) then 1 else 0 := by
  simp only [reconItems, reconLoop, if_neg hp, if_neg hc]
  rw [h1, h0]
  simp only [countSpaces_append, countSpaces_boldItems]
  have hsp : countSpaces (spaceItemsOf gr none p.x0 none) = 0 := by
    cases p.x0 <;> rfl
  rw [hsp]
  have htxt : ∀ s, countSpaces [Item.txt s] = 0 := fun s => rfl
  rw [htxt, htxt]
  have hend : countSpaces (if looks_bold c.fontname then [Item.closeB] else []) = 0 := by
    cases looks_bold c.fontname <;> rfl
  rw [hend]
  by_cases hcond : b0 - a1 > gr * refWidth (widthOf p)
  · rw [spaceItemsOf, if_pos hcond]
    simp [countSpaces, hcond]
  · rw [spaceItemsOf, if_neg hcond]
    simp [countSpaces, hcond]

/-- C4 witness: glyphs with right edge 2 and left edge 4 at gap-ratio
`1/2` (reference width 2, threshold 1, gap 2) get exactly one space. -/
theorem reconstruct_space_iff_witness :
    countSpaces (reconItems [glyphA, glyphB] (1 / 2)) = 1 := by
  have h := reconstruct_space_iff (1 / 2) glyphA glyphB (by decide) (by decide)
    2 4 rfl rfl
  rw [h]
  norm_num [glyphA, widthOf, refWidth]

/-- A glyph with empty text is skipped: it changes neither the emitted
items, the bold flag, nor the gap-tracking state. -/
lemma reconLoop_skip_empty (gr : ℚ) (e : Glyph) (he : e.text = [])
    (xs ys : List Glyph) :
    ∀ (inb : Bool) (px pw : Option ℚ),
      reconLoop gr (xs ++ e :: ys) inb px pw = reconLoop gr (xs ++ ys) inb px pw := by
  induction xs with
  | nil =>
    intro inb px pw
    simp only [List.nil_append, reconLoop, if_pos he]
  | cons x xs' ih =>
    intro inb px pw
    simp only [List.cons_append, reconLoop, List.append_eq]
    by_cases hx : x.text = []
    · rw [if_pos hx, if_pos hx, ih]
    · rw [if_neg hx, if_neg hx, ih]

/-- C8: a glyph with empty text contributes nothing: deleting it from a
line leaves the reconstructor's output unchanged — in particular the gap
used for the next space decision is still measured from the last glyph
that produced output, so a skipped glyph never causes a spurious space
and never toggles the bold flag. -/
theorem reconstruct_skips_empty_glyph (gr : ℚ) (e : Glyph) (he : e.text = [])
    (xs ys : List Glyph) :
    reconItems (xs ++ e :: ys) gr = reconItems (xs ++ ys) gr :=
  reconLoop_skip_empty gr e he xs ys false none none

/-- C8 witness: inserting an empty-text (bold-fonted!) glyph between two
glyphs changes nothing. -/
theorem reconstruct_skips_empty_glyph_witness :
    reconItems [glyphA, glyphEmpty, glyphB] (1 / 2) =
      reconItems [glyphA, glyphB] (1 / 2) :=
  reconstruct_skips_empty_glyph (1 / 2) glyphEmpty (by decide) [glyphA] [glyphB]

/-- Adjacent-pair condition for a mapped range. -/
lemma chain'_map_range {α : Type} (R : α → α → Prop) (f : ℕ → α) (n : ℕ)
    (h : ∀ i, i + 1 < n → R (f i) (f (i + 1))) :
    List.Chain' R ((List.range n).map f) := by
  rw [List.chain'_map]
  cases n with
  | zero => simp
  | succ m =>
    rw [List.chain'_range_succ]
    intro i hi
    exact h i (by omega)

/-- The `i`-th equal column is a member of the generated list. -/
lemma equal_columns_mem (W : ℚ) (n i : ℕ) (hi : i < n) :
    ((i : ℚ) * (W / n), ((i : ℚ) + 1) * (W / n)) ∈ equal_columns W n :=
  List.mem_map.mpr ⟨i, List.mem_range.mpr hi, rfl⟩

/-- C6: for width `W > 0` and count `n ≥ 1`, `equal_columns` produces
exactly `n` boxes, each of width `W/n`, contiguous (each box's `x1` is
the next box's `x0`), in strictly increasing left-to-right order, whose
union is exactly `[0, W]` (no gaps, no overlaps). -/
theorem equal_columns_partition (W : ℚ) (n : ℕ) (hW : 0 < W) (hn : 1 ≤ n) :
    (equal_columns W n).length = n ∧
    (∀ b ∈ equal_columns W n, b.2 - b.1 = W / n) ∧
    List.Chain' (fun a b : Box => a.2 = b.1) (equal_columns W n) ∧
    List.Chain' (fun a b : Box => a.1 < b.1) (equal_columns W n) ∧
    (∀ x : ℚ, (∃ b ∈ equal_columns W n, b.1 ≤ x ∧ x ≤ b.2) ↔ 0 ≤ x ∧ x ≤ W) := by
  have hnpos : (0 : ℚ) < n := by
    have : (0 : ℕ) < n := by omega
    exact_mod_cast this
  have hs : 0 < W / n := div_pos hW hnpos
  have hns : (n : ℚ) * (W / n) = W := by field_simp
  refine ⟨by rw [equal_columns, List.length_map, List.length_range], ?_, ?_, ?_, ?_⟩
  · intro b hb
    rw [equal_columns, List.mem_map] at hb
    obtain ⟨i, -, rfl⟩ := hb
    ring
  · apply chain'_map_range
    intro i hi
    push_cast
    ring
  · apply chain'_map_range
    intro i hi
    have hlt : (i : ℚ) < (i : ℚ) + 1 := by linarith
    have := mul_lt_mul_of_pos_right hlt hs
    calc (i : ℚ) * (W / n) < ((i : ℚ) + 1) * (W / n) := this
      _ = ((i + 1 : ℕ) : ℚ) * (W / n) := by push_cast; ring
  · intro x
    constructor
    · rintro ⟨b, hb, hbx, hxb⟩
      rw [equal_columns, List.mem_map] at hb
      obtain ⟨i, hir, rfl⟩ := hb
      rw [List.mem_range] at hir
      constructor
      · have h0 : (0 : ℚ) ≤ (i : ℚ) * (W / n) :=
          mul_nonneg (Nat.cast_nonneg i) hs.le
        simp only at hbx
        linarith
      · have hin : ((i : ℚ) + 1) ≤ (n : ℚ) := by exact_mod_cast hir
        have hmul : ((i : ℚ) + 1) * (W / n) ≤ (n : ℚ) * (W / n) :=
          mul_le_mul_of_nonneg_right hin hs.le
        rw [hns] at hmul
        simp only at hxb
        linarith
    · rintro ⟨hx0, hxW⟩
      by_cases hxlt : x < W
      · have hq0 : 0 ≤ x / (W / n) := div_nonneg hx0 hs.le
        have hj0 : 0 ≤ ⌊x / (W / n)⌋ := Int.floor_nonneg.mpr hq0
        have hij : ((⌊x / (W / n)⌋.toNat : ℤ)) = ⌊x / (W / n)⌋ :=
          Int.toNat_of_nonneg hj0
        have hijq : ((⌊x / (W / n)⌋.toNat : ℕ) : ℚ) = ((⌊x / (W / n)⌋ : ℤ) : ℚ) := by
          exact_mod_cast hij
        have hfl : ((⌊x / (W / n)⌋ : ℤ) : ℚ) ≤ x / (W / n) := Int.floor_le _
        have hfu : x / (W / n) < ((⌊x / (W / n)⌋ : ℤ) : ℚ) + 1 := Int.lt_floor_add_one _
        have hdiv : x / (W / n) < (n : ℚ) := by
          rw [div_lt_iff₀ hs, hns]
          exact hxlt
        have hilt : ⌊x / (W / n)⌋.toNat < n := by
          have hq : ((⌊x / (W / n)⌋ : ℤ) : ℚ) < (n : ℚ) := lt_of_le_of_lt hfl hdiv
          have hz : ⌊x / (W / n)⌋ < (n : ℤ) := by exact_mod_cast hq
          omega
        refine ⟨_, equal_columns_mem W n ⌊x / (W / n)⌋.toNat hilt, ?_, ?_⟩
        · simp only
          rw [hijq]
          calc ((⌊x / (W / n)⌋ : ℤ) : ℚ) * (W / n)
              ≤ (x / (W / n)) * (W / n) := mul_le_mul_of_nonneg_right hfl hs.le
            _ = x := div_mul_cancel₀ x hs.ne'
        · simp only
          rw [hijq]
          calc x = (x / (W / n)) * (W / n) := (div_mul_cancel₀ x hs.ne').symm
            _ ≤ (((⌊x / (W / n)⌋ : ℤ) : ℚ) + 1) * (W / n) :=
              mul_le_mul_of_nonneg_right hfu.le hs.le
      · have hxeq : x = W := le_antisymm hxW (not_lt.mp hxlt)
        have hcast : ((n - 1 : ℕ) : ℚ) = (n : ℚ) - 1 := by
          rw [Nat.cast_sub hn, Nat.cast_one]
        refine ⟨_, equal_columns_mem W n (n - 1) (by omega), ?_, ?_⟩
        · simp only
          rw [hcast, hxeq]
          have hmul : ((n : ℚ) - 1) * (W / n) ≤ (n : ℚ) * (W / n) :=
            mul_le_mul_of_nonneg_right (by linarith) hs.le
          rw [hns] at hmul
          exact hmul
        · simp only
          rw [hcast, hxeq]
          have heq : ((n : ℚ) - 1 + 1) * (W / n) = W := by
            rw [sub_add_cancel, hns]
          rw [heq]

/-- C6 witness: instantiate at width 6 and three columns. -/
theorem equal_columns_partition_witness :
    ((0 : ℚ) < 6 ∧ 1 ≤ 3) ∧
    ((equal_columns 6 3).length = 3 ∧
    (∀ b ∈ equal_columns 6 3, b.2 - b.1 = 6 / 3) ∧
    List.Chain' (fun a b : Box => a.2 = b.1) (equal_columns 6 3) ∧
    List.Chain' (fun a b : Box => a.1 < b.1) (equal_columns 6 3) ∧
    (∀ x : ℚ, (∃ b ∈ equal_columns 6 3, b.1 ≤ x ∧ x ≤ b.2) ↔ 0 ≤ x ∧ x ≤ 6)) :=
  ⟨⟨by norm_num, by norm_num⟩, equal_columns_partition 6 3 (by norm_num) (by norm_num)⟩

/-- C9: the line-grouping tolerance actually used is `max(1.0,
y_tolerance)`, so any caller-supplied tolerance below `1.0` behaves
exactly as tolerance `1.0` — the effective tolerance is never smaller
than `1.0`. -/
theorem extract_page_columns_tol_clamped (page : Page) (col_boxes : List Box)
    (hr fr xt yt : ℚ) (h : yt < 1) :
    extract_page_columns page col_boxes hr fr xt yt =
      extract_page_columns page col_boxes hr fr xt 1 := by
  have hm : max (1 : ℚ) yt = 1 := max_eq_left h.le
  simp only [extract_page_columns, hm, max_self]

/-- C9 witness: instantiate at tolerance `1/2 < 1`. -/
theorem extract_page_columns_tol_clamped_witness :
    extract_page_columns page0 [] 0 0 1 (1 / 2) =
      extract_page_columns page0 [] 0 0 1 1 :=
  extract_page_columns_tol_clamped page0 [] 0 0 1 (1 / 2) (by norm_num)

/-- Box selection never raises an `IndexError`. -/
lemma chooseBoxes_ne_indexErr (page : Page) (pnum : ℤ) (dflt : ℕ)
    (oddSpec evenSpec : Chars) :
    chooseBoxes page pnum dflt oddSpec evenSpec ≠ .error .indexErr := by
  rw [chooseBoxes]
  split_ifs
  · cases parse_cols_spec oddSpec page.width <;> simp
  · cases parse_cols_spec evenSpec page.width <;> simp
  · simp

/-- If every visited index is in range, the page loop never raises an
`IndexError`. -/
lemma pagesLoop_ne_indexErr (pages : List Page) (dflt : ℕ) (hr fr xt yt : ℚ)
    (oddSpec evenSpec : Chars) (idxs : List ℤ)
    (h : ∀ i ∈ idxs, i.toNat < pages.length) :
    pagesLoop pages dflt hr fr xt yt oddSpec evenSpec idxs ≠ .error .indexErr := by
  induction idxs with
  | nil => simp [pagesLoop]
  | cons idx rest ih =>
    have hidx := h idx (by simp)
    have hpage : pages.get? idx.toNat = some (pages.get ⟨idx.toNat, hidx⟩) :=
      List.get?_eq_get hidx
    simp only [pagesLoop, hpage, List.get_eq_getElem]
    cases hcb : chooseBoxes pages[idx.toNat] (idx + 1) dflt oddSpec evenSpec with
    | error e =>
      simp only [hcb]
      intro hcontra
      have he : e = RunErr.indexErr := by injection hcontra
      exact chooseBoxes_ne_indexErr pages[idx.toNat] (idx + 1) dflt oddSpec evenSpec
        (he ▸ hcb)
    | ok col_boxes =>
      simp only [hcb]
      cases hrest : pagesLoop pages dflt hr fr xt yt oddSpec evenSpec rest with
      | error e =>
        simp only [hrest]
        intro hcontra
        have he : e = RunErr.indexErr := by injection hcontra
        exact ih (fun i hi => h i (by simp [hi])) (he ▸ hrest)
      | ok acc =>
        simp only [hrest]
        simp

/-- Bounds of Python `range(a, b)`. -/
lemma pyRange_bounds (a b i : ℤ) (h : i ∈ pyRange a b) : a ≤ i ∧ i < b := by
  rw [pyRange, List.mem_map] at h
  obtain ⟨k, hk, rfl⟩ := h
  rw [List.mem_range] at hk
  omega

/-- C2 (amended): start is clamped to `≥ 1` and end to
`[clamped-start, total]`; when the clamped start is within the document
no out-of-range page access happens, but when the clamped start exceeds
the page count the assembler still visits index `start - 1` and fails
with an `IndexError` instead of yielding empty output. -/
theorem pdf_to_txt_range_clamped (pages : List Page) (start_page : ℤ)
    (end_page : Option ℤ) (dflt : ℕ) (hr fr xt yt : ℚ)
    (oddSpec evenSpec : Chars) :
    (max 1 start_page ≤ (pages.length : ℤ) →
      pdf_to_txt_parity_boxes pages start_page end_page dflt hr fr xt yt
        oddSpec evenSpec ≠ .error .indexErr) ∧
    ((pages.length : ℤ) < max 1 start_page →
      pdf_to_txt_parity_boxes pages start_page end_page dflt hr fr xt yt
        oddSpec evenSpec = .error .indexErr) := by
  constructor
  · intro hs
    rw [pdf_to_txt_parity_boxes]
    have hrange : ∀ i ∈ pyRange (max 1 start_page - 1)
        (max (max 1 start_page)
          (min (end_page.getD (pages.length : ℤ)) (pages.length : ℤ))),
        i.toNat < pages.length := by
      intro i hi
      obtain ⟨hlo, hhi⟩ := pyRange_bounds _ _ i hi
      have h1 : (1 : ℤ) ≤ max 1 start_page := le_max_left _ _
      have h2 : min (end_page.getD (pages.length : ℤ)) (pages.length : ℤ) ≤
          (pages.length : ℤ) := min_le_right _ _
      omega
    have hne := pagesLoop_ne_indexErr pages dflt hr fr xt yt oddSpec evenSpec
      _ hrange
    cases hloop : pagesLoop pages dflt hr fr xt yt oddSpec evenSpec
        (pyRange (max 1 start_page - 1)
          (max (max 1 start_page)
            (min (end_page.getD (pages.length : ℤ)) (pages.length : ℤ)))) with
    | error e =>
      rw [hloop] at hne
      intro hcontra
      have he : e = RunErr.indexErr := by injection hcontra
      exact hne (by rw [he])
    | ok texts => simp
  · intro hs
    rw [pdf_to_txt_parity_boxes]
    have h1 : (1 : ℤ) ≤ max 1 start_page := le_max_left _ _
    have hep : max (max 1 start_page)
        (min (end_page.getD (pages.length : ℤ)) (pages.length : ℤ)) =
        max 1 start_page := by
      have : min (end_page.getD (pages.length : ℤ)) (pages.length : ℤ) ≤
          (pages.length : ℤ) := min_le_right _ _
      omega
    rw [hep]
    have hone : max 1 start_page = (max 1 start_page - 1) + 1 := by ring
    have hsingle : pyRange (max 1 start_page - 1) (max 1 start_page) =
        [max 1 start_page - 1] := by
      rw [pyRange]
      have : (max 1 start_page - (max 1 start_page - 1)) = (1 : ℤ) := by ring
      rw [this]
      rw [show List.range (1 : ℤ).toNat = [0] from rfl]
      simp
    rw [hsingle, pagesLoop]
    have hnone : pages.get? (max 1 start_page - 1).toNat = none := by
      rw [List.get?_eq_none]
      omega
    rw [hnone]

/-- C2 counterexample: a 1-page document with requested start page 2.
The claim predicts that no page is processed and the output is empty;
the code instead visits 0-based index 1 — out of range — and fails with
an `IndexError` (`ep = max(sp, min(end, total))` keeps `ep = sp` even
when `sp` exceeds the page count, so `pages[sp-1]` is accessed). -/
theorem pdf_to_txt_out_of_range_counterexample :
    pdf_to_txt_parity_boxes [page0] 2 none 3 0 0 1 2 [] [] = .error .indexErr ∧
    pdf_to_txt_parity_boxes [page0] 2 none 3 0 0 1 2 [] [] ≠ .ok [] := by
  constructor
  · decide
  · decide

/-- C2 witness: the amended theorem applied to a 1-page document with
start page 3 (clamped start exceeds the page count, so an `IndexError`
is raised). -/
theorem pdf_to_txt_range_clamped_witness :
    pdf_to_txt_parity_boxes [page0] 3 none 3 0 0 1 2 [] [] = .error .indexErr :=
  (pdf_to_txt_range_clamped [page0] 3 none 3 0 0 1 2 [] []).2 (by simp)

lemma dropWhile_all_eq_nil {α : Type} (p : α → Bool) (l : List α)
    (h : ∀ x ∈ l, p x = true) : l.dropWhile p = [] :=
  List.dropWhile_eq_nil_iff.mpr h

lemma dropWhile_cons_ne {α : Type} (p : α → Bool) (x : α) (l : List α)
    (h : p x = false) : (x :: l).dropWhile p = x :: l := by
  simp [List.dropWhile_cons, h]

/-- Appending past a part that does not get fully dropped. -/
lemma dropWhile_append_of_ne_nil {α : Type} (p : α → Bool) (l₁ l₂ : List α)
    (h : l₁.dropWhile p ≠ []) :
    (l₁ ++ l₂).dropWhile p = l₁.dropWhile p ++ l₂ := by
  rw [List.dropWhile_append]
  rw [if_neg (by simpa [List.isEmpty_iff] using h)]

/-- Appending past a part that gets fully dropped. -/
lemma dropWhile_append_of_nil {α : Type} (p : α → Bool) (l₁ l₂ : List α)
    (h : l₁.dropWhile p = []) :
    (l₁ ++ l₂).dropWhile p = l₂.dropWhile p := by
  rw [List.dropWhile_append]
  rw [if_pos (by simp [h])]

/-- The head of a non-empty `dropWhile` fails the predicate. -/
lemma dropWhile_head_false {α : Type} (p : α → Bool) (l : List α) (x : α)
    (xs : List α) (h : l.dropWhile p = x :: xs) : p x = false := by
  induction l with
  | nil => cases h
  | cons a t ih =>
    rw [List.dropWhile_cons] at h
    by_cases hp : p a = true
    · rw [if_pos hp] at h
      exact ih h
    · rw [if_neg hp] at h
      injection h with h1 h2
      subst h1
      exact Bool.not_eq_true _ ▸ hp

/-- A list is `rstripPy`-fixed iff it is empty or ends in non-whitespace. -/
lemma rstrip_fixed_iff (l : Chars) :
    rstripPy l = l ↔ (l = [] ∨ ∃ c, l.getLast? = some c ∧ c.isWhitespace = false) := by
  rw [rstripPy]
  constructor
  · intro h
    cases hl : l.reverse with
    | nil =>
      left
      simpa using congrArg List.reverse hl
    | cons c cs =>
      right
      refine ⟨c, ?_, ?_⟩
      · rw [← List.head?_reverse, hl]
        rfl
      · have hdrop : l.reverse.dropWhile Char.isWhitespace = l.reverse := by
          have := congrArg List.reverse h
          rwa [List.reverse_reverse] at this
        rw [hl] at hdrop
        by_cases hc : c.isWhitespace = true
        · exfalso
          rw [List.dropWhile_cons, if_pos hc] at hdrop
          have hlen := congrArg List.length hdrop
          have : cs.dropWhile Char.isWhitespace <:+ cs := List.dropWhile_suffix _
          have hle := List.IsSuffix.length_le this
          simp at hlen
          omega
        · simpa using hc
  · rintro (rfl | ⟨c, hc, hws⟩)
    · rfl
    · cases hl : l.reverse with
      | nil =>
        simp [hl]
        simpa using congrArg List.reverse hl
      | cons d ds =>
        have : l.getLast? = some d := by rw [← List.head?_reverse, hl]; rfl
        rw [this] at hc
        injection hc with hc
        subst hc
        rw [dropWhile_cons_ne _ _ _ hws]
        have h2 := congrArg List.reverse hl
        rw [List.reverse_reverse] at h2
        exact h2.symm

lemma joinNl_cons (l : Chars) (ls : List Chars) (h : ls ≠ []) :
    joinNl (l :: ls) = l ++ '\n' :: joinNl ls := by
  cases ls with
  | nil => exact absurd rfl h
  | cons a as => rfl

lemma splitlines_single : ∀ l : Chars, '\n' ∉ l → l ≠ [] → splitlinesPy l = [l] := by
  intro l
  induction l with
  | nil => intro _ hne; exact absurd rfl hne
  | cons c rest ih =>
    intro hn _
    have hc : ¬(c = '\n') := fun h => hn (h ▸ List.mem_cons_self c rest)
    by_cases hr : rest = []
    · subst hr
      simp [splitlinesPy, hc]
    · have hrec := ih (fun h => hn (List.mem_cons_of_mem _ h)) hr
      simp only [splitlinesPy, if_neg hc, hrec]

lemma splitlines_append_newline : ∀ l r : Chars, '\n' ∉ l →
    splitlinesPy (l ++ '\n' :: r) = l :: splitlinesPy r := by
  intro l
  induction l with
  | nil => intro r _; simp [splitlinesPy]
  | cons c t ih =>
    intro r hn
    have hc : ¬(c = '\n') := fun h => hn (h ▸ List.mem_cons_self c t)
    have hrec := ih r (fun h => hn (List.mem_cons_of_mem _ h))
    simp only [List.cons_append, splitlinesPy, List.append_eq, if_neg hc, hrec]

lemma splitlines_joinNl : ∀ M : List Chars, (∀ l ∈ M, '\n' ∉ l) →
    (∃ m, M.getLast? = some m ∧ m ≠ []) → splitlinesPy (joinNl M) = M := by
  intro M
  induction M with
  | nil => rintro - ⟨m, hm, -⟩; cases hm
  | cons l M' ih =>
    rintro hn ⟨m, hm, hmne⟩
    cases M' with
    | nil =>
      have hll : ([l] : List Chars).getLast? = some l := rfl
      rw [hll] at hm
      injection hm with h
      subst h
      exact splitlines_single l (hn l (by simp)) hmne
    | cons a as =>
      rw [joinNl_cons l (a :: as) (by simp),
        splitlines_append_newline l (joinNl (a :: as)) (hn l (by simp))]
      have hmm : (a :: as).getLast? = some m := by
        rw [← hm, List.getLast?_cons_cons]
      rw [ih (fun x hx => hn x (List.mem_cons_of_mem _ hx)) ⟨m, hmm, hmne⟩]

lemma joinNl_all_nil : ∀ B : List Chars, (∀ l ∈ B, l = []) →
    joinNl B = List.replicate (B.length - 1) '\n' := by
  intro B
  induction B with
  | nil => intro _; rfl
  | cons b B' ih =>
    intro h
    have hb : b = [] := h b (by simp)
    cases B' with
    | nil =>
      subst hb
      rfl
    | cons a as =>
      rw [joinNl_cons b (a :: as) (by simp), hb, List.nil_append,
        ih (fun x hx => h x (List.mem_cons_of_mem _ hx))]
      rfl

lemma joinNl_leading_nil : ∀ A R : List Chars, (∀ l ∈ A, l = []) → R ≠ [] →
    joinNl (A ++ R) = List.replicate A.length '\n' ++ joinNl R := by
  intro A
  induction A with
  | nil => intro R _ _; simp
  | cons a A' ih =>
    intro R hA hR
    have ha : a = [] := hA a (by simp)
    have hne : A' ++ R ≠ [] := by simp [hR]
    rw [List.cons_append, joinNl_cons a (A' ++ R) hne, ha, List.nil_append,
      ih R (fun x hx => hA x (List.mem_cons_of_mem _ hx)) hR]
    simp [List.replicate_succ]

lemma joinNl_trailing_nil : ∀ X B : List Chars, (∀ l ∈ B, l = []) → X ≠ [] →
    joinNl (X ++ B) = joinNl X ++ List.replicate B.length '\n' := by
  intro X
  induction X with
  | nil => intro B _ h; exact absurd rfl h
  | cons x X' ih =>
    intro B hB _
    cases X' with
    | nil =>
      cases B with
      | nil => simp [joinNl]
      | cons b bs =>
        rw [List.singleton_append, joinNl_cons x (b :: bs) (by simp),
          joinNl_all_nil (b :: bs) hB]
        simp [joinNl, List.replicate_succ]
    | cons y ys =>
      have hne1 : (y :: ys : List Chars) ≠ [] := by simp
      have hne2 : (y :: ys) ++ B ≠ [] := by simp
      rw [List.cons_append, joinNl_cons x ((y :: ys) ++ B) hne2, ih B hB hne1,
        joinNl_cons x (y :: ys) hne1]
      simp

lemma lstrip_replicate_newline (k : ℕ) (x : Chars) :
    lstripPy (List.replicate k '\n' ++ x) = lstripPy x := by
  induction k with
  | zero => simp
  | succ m ih =>
    rw [List.replicate_succ, List.cons_append, lstripPy, List.dropWhile_cons]
    rw [if_pos (by decide)]
    exact ih

lemma rstrip_append_replicate (y : Chars) (k : ℕ) :
    rstripPy (y ++ List.replicate k '\n') = rstripPy y := by
  rw [rstripPy, rstripPy, List.reverse_append, List.reverse_replicate]
  rw [dropWhile_append_of_nil _ _ _
    (dropWhile_all_eq_nil _ _ (fun c hc => by
      rw [List.eq_of_mem_replicate hc]; decide))]

lemma joinNl_ne_nil : ∀ M : List Chars, ∀ m, M.getLast? = some m → m ≠ [] →
    joinNl M ≠ [] := by
  intro M
  induction M with
  | nil => intro m hm; cases hm
  | cons l M' ih =>
    intro m hm hmne
    cases M' with
    | nil =>
      have hll : ([l] : List Chars).getLast? = some l := rfl
      rw [hll] at hm
      injection hm with h
      subst h
      simpa [joinNl] using hmne
    | cons a as =>
      rw [joinNl_cons l (a :: as) (by simp)]
      simp

lemma getLast?_joinNl : ∀ M : List Chars, ∀ m, M.getLast? = some m → m ≠ [] →
    (joinNl M).getLast? = m.getLast? := by
  intro M
  induction M with
  | nil => intro m hm; cases hm
  | cons l M' ih =>
    intro m hm hmne
    cases M' with
    | nil =>
      have hll : ([l] : List Chars).getLast? = some l := rfl
      rw [hll] at hm
      injection hm with h
      subst h
      rfl
    | cons a as =>
      have hmm : (a :: as).getLast? = some m := by
        rw [← hm, List.getLast?_cons_cons]
      have hjne : joinNl (a :: as) ≠ [] := joinNl_ne_nil (a :: as) m hmm hmne
      rw [joinNl_cons l (a :: as) (by simp)]
      rw [List.getLast?_append_of_ne_nil l (List.cons_ne_nil _ _)]
      cases hz : joinNl (a :: as) with
      | nil => exact absurd hz hjne
      | cons z zs =>
        rw [List.getLast?_cons_cons, ← hz, ih m hmm hmne]

lemma getLast?_of_suffix {l₂ l₁ : Chars} (h : l₂ <:+ l₁) (hne : l₂ ≠ []) :
    l₂.getLast? = l₁.getLast? := by
  obtain ⟨t, rfl⟩ := h
  exact (List.getLast?_append_of_ne_nil t hne).symm

lemma rstrip_fixed_lstrip (l : Chars) (hr : rstripPy l = l) :
    rstripPy (lstripPy l) = lstripPy l := by
  by_cases hls : lstripPy l = []
  · rw [hls]
    rfl
  · rcases (rstrip_fixed_iff l).mp hr with rfl | ⟨c, hc, hws⟩
    · exact absurd rfl hls
    · apply (rstrip_fixed_iff _).mpr
      right
      refine ⟨c, ?_, hws⟩
      have hsuf : lstripPy l <:+ l := List.dropWhile_suffix _
      rw [getLast?_of_suffix hsuf hls]
      exact hc

lemma dropTrailingEmp_cons_ne (x : Chars) (l : List Chars) (hx : x ≠ []) :
    dropTrailingEmp (x :: l) = x :: dropTrailingEmp l := by
  have hxe : x.isEmpty = false := by
    cases x with
    | nil => exact absurd rfl hx
    | cons a as => rfl
  rw [dropTrailingEmp, dropTrailingEmp, List.reverse_cons]
  by_cases hd : l.reverse.dropWhile (fun y => y.isEmpty) = []
  · rw [dropWhile_append_of_nil _ _ _ hd, hd]
    rw [dropWhile_cons_ne _ _ _ hxe]
    rfl
  · rw [dropWhile_append_of_ne_nil _ _ _ hd, List.reverse_append]
    rfl

lemma dropTrailingEmp_decomp (l : List Chars) :
    l = dropTrailingEmp l ++ (l.reverse.takeWhile (fun x => x.isEmpty)).reverse := by
  have h := List.takeWhile_append_dropWhile (fun x : Chars => x.isEmpty) l.reverse
  calc l = l.reverse.reverse := (List.reverse_reverse l).symm
    _ = (l.reverse.takeWhile (fun x => x.isEmpty) ++
          l.reverse.dropWhile (fun x => x.isEmpty)).reverse := by rw [h]
    _ = dropTrailingEmp l ++ (l.reverse.takeWhile (fun x => x.isEmpty)).reverse := by
        rw [List.reverse_append]
        rfl

lemma dropTrailingEmp_trailing_nil (l : List Chars) :
    ∀ x ∈ (l.reverse.takeWhile (fun x => x.isEmpty)).reverse, x = [] := by
  intro x hx
  rw [List.mem_reverse] at hx
  have := List.mem_takeWhile_imp hx
  simpa [List.isEmpty_iff] using this

lemma dropTrailingEmp_subset (l : List Chars) :
    ∀ x ∈ dropTrailingEmp l, x ∈ l := by
  intro x hx
  rw [dropTrailingEmp, List.mem_reverse] at hx
  have := (List.dropWhile_suffix (fun y : Chars => y.isEmpty)).subset hx
  exact List.mem_reverse.mp this

lemma dropTrailingEmp_last (l : List Chars) :
    dropTrailingEmp l = [] ∨
      ∃ m, (dropTrailingEmp l).getLast? = some m ∧ m ≠ [] := by
  rw [dropTrailingEmp]
  cases hd : l.reverse.dropWhile (fun y => y.isEmpty) with
  | nil => left; rfl
  | cons d ds =>
    right
    have hde : d.isEmpty = false := dropWhile_head_false _ _ _ _ hd
    refine ⟨d, ?_, ?_⟩
    · rw [← List.head?_reverse, List.reverse_reverse]
      rfl
    · intro h
      rw [h] at hde
      simp at hde

lemma mem_of_getLast?C : ∀ {l : List Chars} {m : Chars}, l.getLast? = some m → m ∈ l := by
  intro l
  induction l with
  | nil => intro m h; cases h
  | cons a t ih =>
    intro m h
    cases t with
    | nil =>
      have hll : ([a] : List Chars).getLast? = some a := rfl
      rw [hll] at h
      injection h with h'
      subst h'
      simp
    | cons b bs =>
      rw [List.getLast?_cons_cons] at h
      exact List.mem_cons_of_mem _ (ih h)

/-- The heart of the C5 analysis: stripping the newline-join of a list of
rstripped, newline-free lines splits back into the lines with leading and
trailing empty lines removed and the first remaining line left-stripped. -/
lemma strip_joinNl (out : List Chars) (hr : ∀ l ∈ out, rstripPy l = l)
    (hn : ∀ l ∈ out, '\n' ∉ l) :
    splitlinesPy (stripPy (joinNl out)) =
      lstripFirst (trimEmp out) := by
  cases hR : out.dropWhile (fun x => x.isEmpty) with
  | nil =>
    have hall : ∀ l ∈ out, l = [] := by
      intro l hl
      have := List.dropWhile_eq_nil_iff.mp hR l hl
      simpa [List.isEmpty_iff] using this
    have hj := joinNl_all_nil out hall
    have hls : lstripPy (joinNl out) = [] := by
      rw [hj, ← List.append_nil (List.replicate (out.length - 1) '\n'),
        lstrip_replicate_newline]
      rfl
    rw [stripPy, hls, show rstripPy [] = [] from rfl,
      show splitlinesPy [] = [] from rfl, trimEmp, hR]
    rfl
  | cons m₀ M' =>
    have hsuffix : out.dropWhile (fun x => x.isEmpty) <:+ out :=
      List.dropWhile_suffix _
    rw [hR] at hsuffix
    have hsub : ∀ l ∈ m₀ :: M', l ∈ out := fun l hl => hsuffix.subset hl
    have hm₀ : m₀.isEmpty = false := dropWhile_head_false _ out m₀ M' hR
    have hm₀ne : m₀ ≠ [] := by
      intro h
      rw [h] at hm₀
      simp at hm₀
    have hA : ∀ l ∈ out.takeWhile (fun x => x.isEmpty), l = [] := by
      intro l hl
      have := List.mem_takeWhile_imp hl
      simpa [List.isEmpty_iff] using this
    have hlne : lstripPy m₀ ≠ [] := by
      intro hcon
      have hall : ∀ x ∈ m₀, x.isWhitespace = true := List.dropWhile_eq_nil_iff.mp hcon
      have hz : rstripPy m₀ = [] := by
        rw [rstripPy, dropWhile_all_eq_nil _ _
          (fun c hc => hall c (List.mem_reverse.mp hc))]
        rfl
      rw [hr m₀ (hsub m₀ (by simp))] at hz
      exact hm₀ne hz
    have h1 : joinNl out =
        List.replicate (out.takeWhile (fun x => x.isEmpty)).length '\n' ++
          joinNl (m₀ :: M') := by
      conv_lhs => rw [← List.takeWhile_append_dropWhile (fun x : Chars => x.isEmpty) out,
        hR]
      exact joinNl_leading_nil _ _ hA (by simp)
    have h2 : lstripPy (joinNl out) = joinNl (lstripPy m₀ :: M') := by
      rw [h1, lstrip_replicate_newline]
      cases M' with
      | nil => rfl
      | cons a as =>
        rw [joinNl_cons m₀ (a :: as) (by simp),
          joinNl_cons (lstripPy m₀) (a :: as) (by simp)]
        exact dropWhile_append_of_ne_nil _ _ _ hlne
    have hx₀r : rstripPy (lstripPy m₀) = lstripPy m₀ :=
      rstrip_fixed_lstrip m₀ (hr m₀ (hsub m₀ (by simp)))
    have hXr : ∀ l ∈ lstripPy m₀ :: M', rstripPy l = l := by
      intro l hl
      rcases List.mem_cons.mp hl with rfl | hl'
      · exact hx₀r
      · exact hr l (hsub l (List.mem_cons_of_mem _ hl'))
    have hXn : ∀ l ∈ lstripPy m₀ :: M', '\n' ∉ l := by
      intro l hl
      rcases List.mem_cons.mp hl with rfl | hl'
      · intro hmem
        exact hn m₀ (hsub m₀ (by simp))
          ((List.dropWhile_suffix _).subset hmem)
      · exact hn l (hsub l (List.mem_cons_of_mem _ hl'))
    have hXcons : dropTrailingEmp (lstripPy m₀ :: M') =
        lstripPy m₀ :: dropTrailingEmp M' := dropTrailingEmp_cons_ne _ _ hlne
    have hXne : dropTrailingEmp (lstripPy m₀ :: M') ≠ [] := by
      rw [hXcons]
      simp
    obtain ⟨m, hXlast, hmne⟩ :
        ∃ m, (dropTrailingEmp (lstripPy m₀ :: M')).getLast? = some m ∧ m ≠ [] := by
      rcases dropTrailingEmp_last (lstripPy m₀ :: M') with h | h
      · exact absurd h hXne
      · exact h
    have hXsub := dropTrailingEmp_subset (lstripPy m₀ :: M')
    have h3 : rstripPy (joinNl (lstripPy m₀ :: M')) =
        joinNl (dropTrailingEmp (lstripPy m₀ :: M')) := by
      conv_lhs => rw [dropTrailingEmp_decomp (lstripPy m₀ :: M')]
      rw [joinNl_trailing_nil _ _ (dropTrailingEmp_trailing_nil _) hXne,
        rstrip_append_replicate]
      rcases (rstrip_fixed_iff m).mp (hXr m (hXsub m (mem_of_getLast?C hXlast))) with
        rfl | ⟨c, hc, hws⟩
      · exact absurd rfl hmne
      · apply (rstrip_fixed_iff _).mpr
        right
        refine ⟨c, ?_, hws⟩
        rw [getLast?_joinNl _ m hXlast hmne]
        exact hc
    rw [stripPy, h2, h3,
      splitlines_joinNl _ (fun l hl => hXn l (hXsub l hl)) ⟨m, hXlast, hmne⟩]
    rw [trimEmp, hR, dropTrailingEmp_cons_ne _ _ hm₀ne, hXcons]
    rfl

lemma cleanCore_subset : ∀ (ls : List Chars) (b : Bool), ∀ l ∈ cleanCore ls b, l ∈ ls := by
  intro ls
  induction ls with
  | nil => intro b l hl; cases hl
  | cons ln rest ih =>
    intro b l hl
    rw [cleanCore] at hl
    by_cases hb : (blankB ln && b) = true
    · rw [if_pos hb] at hl
      exact List.mem_cons_of_mem _ (ih b l hl)
    · rw [if_neg hb] at hl
      rcases List.mem_cons.mp hl with rfl | hl'
      · simp
      · exact List.mem_cons_of_mem _ (ih (blankB ln) l hl')

lemma rstrip_idem (l : Chars) : rstripPy (rstripPy l) = rstripPy l := by
  apply (rstrip_fixed_iff _).mpr
  cases hd : l.reverse.dropWhile Char.isWhitespace with
  | nil =>
    left
    rw [rstripPy, hd]
    rfl
  | cons d ds =>
    right
    refine ⟨d, ?_, ?_⟩
    · rw [rstripPy, hd, ← List.head?_reverse, List.reverse_reverse]
      rfl
    · have := dropWhile_head_false _ _ _ _ hd
      simpa using this
  -- getLast? of the reversed dropWhile result is its head, which fails isWhitespace

lemma mem_rstrip_subset (l : Chars) : ∀ x ∈ rstripPy l, x ∈ l := by
  intro x hx
  rw [rstripPy, List.mem_reverse] at hx
  exact List.mem_reverse.mp ((List.dropWhile_suffix _).subset hx)

lemma splitlines_no_newline : ∀ s : Chars, ∀ l ∈ splitlinesPy s, '\n' ∉ l := by
  intro s
  induction s with
  | nil => intro l hl; cases hl
  | cons c rest ih =>
    intro l hl
    by_cases hc : c = '\n'
    · rw [splitlinesPy, if_pos hc] at hl
      rcases List.mem_cons.mp hl with rfl | hl'
      · simp
      · exact ih l hl'
    · rw [splitlinesPy, if_neg hc] at hl
      cases hrest : splitlinesPy rest with
      | nil =>
        rw [hrest] at hl
        rcases List.mem_cons.mp hl with rfl | hl'
        · simpa [eq_comm] using hc
        · cases hl'
      | cons h t =>
        rw [hrest] at hl
        rcases List.mem_cons.mp hl with rfl | hl'
        · intro hmem
          rcases List.mem_cons.mp hmem with heq | hmem'
          · exact hc heq.symm
          · exact ih h (by rw [hrest]; simp) hmem'
        · exact ih l (by rw [hrest]; exact List.mem_cons_of_mem _ hl')

/-- The line structure of `clean_lines`: right-strip, collapse repeated
blanks, then trim leading/trailing empty lines and left-strip the first
remaining line. -/
lemma clean_lines_lines (s : Chars) :
    splitlinesPy (clean_lines s) =
      lstripFirst (trimEmp (cleanCore ((splitlinesPy s).map rstripPy) false)) := by
  by_cases hs : s = []
  · subst hs
    rfl
  · rw [clean_lines, if_neg hs]
    apply strip_joinNl
    · intro l hl
      have hmem := cleanCore_subset _ _ l hl
      obtain ⟨x, hx, rfl⟩ := List.mem_map.mp hmem
      exact rstrip_idem x
    · intro l hl
      have hmem := cleanCore_subset _ _ l hl
      obtain ⟨x, hx, rfl⟩ := List.mem_map.mp hmem
      intro hcontra
      exact splitlines_no_newline s x hx (mem_rstrip_subset _ _ hcontra)

lemma cleanCore_head_not_blank : ∀ (ls : List Chars) (h : Chars) (t : List Chars),
    cleanCore ls true = h :: t → blankB h = false := by
  intro ls
  induction ls with
  | nil => intro h t hc; cases hc
  | cons ln rest ih =>
    intro h t hc
    rw [cleanCore] at hc
    by_cases hb : blankB ln = true
    · rw [if_pos (by rw [hb]; rfl)] at hc
      exact ih h t hc
    · rw [if_neg (by simp [hb])] at hc
      injection hc with h1 h2
      subst h1
      simpa using hb

lemma cleanCore_noConsec : ∀ (ls : List Chars) (b : Bool),
    NoConsecBlank (cleanCore ls b) := by
  intro ls
  induction ls with
  | nil => intro b; exact List.chain'_nil
  | cons ln rest ih =>
    intro b
    rw [cleanCore]
    by_cases hb : (blankB ln && b) = true
    · rw [if_pos hb]
      exact ih b
    · rw [if_neg hb]
      rw [NoConsecBlank, List.chain'_cons']
      refine ⟨?_, ih (blankB ln)⟩
      intro y hy
      rintro ⟨hln, hyb⟩
      by_cases hlb : blankB ln = true
      · cases hc : cleanCore rest (blankB ln) with
        | nil => rw [hc] at hy; cases hy
        | cons h t =>
          rw [hc] at hy
          have hh : y = h := by
            simpa [eq_comm] using hy
          rw [hlb] at hc
          have := cleanCore_head_not_blank rest h t hc
          rw [hh] at hyb
          rw [hyb] at this
          cases this
      · exact hlb hln

lemma countNonBlank_cleanCore : ∀ (ls : List Chars) (b : Bool),
    countNonBlank (cleanCore ls b) = countNonBlank ls := by
  intro ls
  induction ls with
  | nil => intro b; rfl
  | cons ln rest ih =>
    intro b
    rw [cleanCore]
    by_cases hb : (blankB ln && b) = true
    · rw [if_pos hb, ih b]
      have hlb : blankB ln = true := by
        cases hq : blankB ln
        · rw [hq] at hb; simp at hb
        · rfl
      rw [countNonBlank, countNonBlank, List.countP_cons]
      simp [hlb]
    · rw [if_neg hb]
      rw [countNonBlank, countNonBlank, List.countP_cons, List.countP_cons]
      rw [show List.countP (fun s => !blankB s) (cleanCore rest (blankB ln)) =
        List.countP (fun s => !blankB s) rest from ih (blankB ln)]

lemma blankB_append (a b : Chars) : blankB (a ++ b) = (blankB a && blankB b) :=
  List.all_append ..

lemma rstrip_decomp (l : Chars) :
    l = rstripPy l ++ (l.reverse.takeWhile Char.isWhitespace).reverse := by
  have h := List.takeWhile_append_dropWhile Char.isWhitespace l.reverse
  calc l = l.reverse.reverse := (List.reverse_reverse l).symm
    _ = (l.reverse.takeWhile Char.isWhitespace ++
          l.reverse.dropWhile Char.isWhitespace).reverse := by rw [h]
    _ = rstripPy l ++ (l.reverse.takeWhile Char.isWhitespace).reverse := by
        rw [List.reverse_append]
        rfl

lemma blankB_rstrip (l : Chars) : blankB (rstripPy l) = blankB l := by
  conv_rhs => rw [rstrip_decomp l]
  rw [blankB_append]
  have : blankB ((l.reverse.takeWhile Char.isWhitespace).reverse) = true := by
    rw [blankB, List.all_eq_true]
    intro x hx
    exact List.mem_takeWhile_imp (List.mem_reverse.mp hx)
  rw [this, Bool.and_true]

lemma blankB_lstrip (l : Chars) : blankB (lstripPy l) = blankB l := by
  conv_rhs => rw [← List.takeWhile_append_dropWhile Char.isWhitespace l]
  rw [blankB_append]
  have : blankB (l.takeWhile Char.isWhitespace) = true := by
    rw [blankB, List.all_eq_true]
    intro x hx
    exact List.mem_takeWhile_imp hx
  rw [this, Bool.true_and]
  rfl

lemma countNonBlank_map_rstrip (ls : List Chars) :
    countNonBlank (ls.map rstripPy) = countNonBlank ls := by
  induction ls with
  | nil => rfl
  | cons x t ih =>
    rw [List.map_cons, countNonBlank, List.countP_cons, countNonBlank,
      List.countP_cons, blankB_rstrip]
    rw [show List.countP (fun s => !blankB s) (t.map rstripPy) =
      List.countP (fun s => !blankB s) t from ih]

lemma countNonBlank_dropWhileEmpty (ls : List Chars) :
    countNonBlank (ls.dropWhile (fun x => x.isEmpty)) = countNonBlank ls := by
  induction ls with
  | nil => rfl
  | cons x t ih =>
    rw [List.dropWhile_cons]
    by_cases hx : x.isEmpty = true
    · rw [if_pos hx]
      have hxe : x = [] := by simpa [List.isEmpty_iff] using hx
      subst hxe
      rw [ih, countNonBlank, countNonBlank, List.countP_cons]
      simp [blankB]
    · rw [if_neg hx]

lemma countNonBlank_reverse (ls : List Chars) :
    countNonBlank ls.reverse = countNonBlank ls :=
  List.countP_reverse _ ls

lemma countNonBlank_dropTrailingEmp (ls : List Chars) :
    countNonBlank (dropTrailingEmp ls) = countNonBlank ls := by
  rw [dropTrailingEmp, countNonBlank_reverse, countNonBlank_dropWhileEmpty,
    countNonBlank_reverse]

lemma countNonBlank_trimEmp (ls : List Chars) :
    countNonBlank (trimEmp ls) = countNonBlank ls := by
  rw [trimEmp, countNonBlank_dropTrailingEmp, countNonBlank_dropWhileEmpty]

lemma countNonBlank_lstripFirst (ls : List Chars) :
    countNonBlank (lstripFirst ls) = countNonBlank ls := by
  cases ls with
  | nil => rfl
  | cons x t =>
    rw [lstripFirst, countNonBlank, List.countP_cons, countNonBlank,
      List.countP_cons, blankB_lstrip]

lemma noConsec_imp_flip (ls : List Chars) (h : NoConsecBlank ls) :
    List.Chain' (flip fun a b => ¬(blankB a = true ∧ blankB b = true)) ls := by
  apply List.Chain'.imp _ h
  intro a b hab
  rintro ⟨h1, h2⟩
  exact hab ⟨h2, h1⟩

lemma noConsec_reverse (ls : List Chars) (h : NoConsecBlank ls) :
    NoConsecBlank ls.reverse := by
  rw [NoConsecBlank, List.chain'_reverse]
  exact noConsec_imp_flip ls h

lemma noConsec_dropTrailingEmp (ls : List Chars) (h : NoConsecBlank ls) :
    NoConsecBlank (dropTrailingEmp ls) := by
  rw [dropTrailingEmp]
  apply noConsec_reverse
  exact List.Chain'.suffix (noConsec_reverse ls h) (List.dropWhile_suffix _)

lemma noConsec_trimEmp (ls : List Chars) (h : NoConsecBlank ls) :
    NoConsecBlank (trimEmp ls) := by
  rw [trimEmp]
  exact noConsec_dropTrailingEmp _ (List.Chain'.suffix h (List.dropWhile_suffix _))

lemma noConsec_lstripFirst (ls : List Chars) (h : NoConsecBlank ls) :
    NoConsecBlank (lstripFirst ls) := by
  cases ls with
  | nil => exact List.chain'_nil
  | cons x t =>
    rw [lstripFirst, NoConsecBlank, List.chain'_cons']
    rw [NoConsecBlank, List.chain'_cons'] at h
    refine ⟨?_, h.2⟩
    intro y hy
    rw [blankB_lstrip]
    exact h.1 y hy

/-- C5 (amended): for every input, `clean_lines` returns text with no two
consecutive blank lines and an unchanged number of non-blank lines; among
*interior* lines exactly the blank-after-blank lines are dropped (after
right-stripping each line), but the final trim additionally removes all
leading and trailing blank lines — so the first blank line of a leading
or trailing run *is* suppressed — and left-strips the first remaining
line. -/
theorem clean_lines_blank_collapsing (s : Chars) :
    NoConsecBlank (splitlinesPy (clean_lines s)) ∧
    countNonBlank (splitlinesPy (clean_lines s)) = countNonBlank (splitlinesPy s) ∧
    splitlinesPy (clean_lines s) =
      lstripFirst (trimEmp (cleanCore ((splitlinesPy s).map rstripPy) false)) := by
  have hchar := clean_lines_lines s
  refine ⟨?_, ?_, hchar⟩
  · rw [hchar]
    exact noConsec_lstripFirst _ (noConsec_trimEmp _ (cleanCore_noConsec _ false))
  · rw [hchar, countNonBlank_lstripFirst, countNonBlank_trimEmp,
      countNonBlank_cleanCore, countNonBlank_map_rstrip]

/-- C5 counterexample: on the input `"\nx"` the leading blank line is the
first (and only) line of its blank run — the claim says it is never
suppressed — yet `clean_lines` (whose final `.strip()` trims boundary
blank lines) drops it: the output's lines are `["x"]` while dropping only
blank-after-blank lines would give `["", "x"]`. -/
theorem clean_lines_counterexample :
    clean_lines ("\nx".toList) = "x".toList ∧
    splitlinesPy (clean_lines ("\nx".toList)) ≠
      cleanCore (splitlinesPy ("\nx".toList)) false := by
  constructor
  · decide
  · decide
